import Mathlib

/-!
Verification of the ledger consensus core of `blockchain.py`.

The development is a shallow embedding of the source file:

* `Transaction`, `Block` and `BlockchainNode` mirror the three Python
  classes field by field.
* The SHA-256 hex digest used in `Block.hash` comes from an external
  library (`hashlib`), so every definition is parameterised by an abstract
  hash function `H : String → String`; likewise RSA signature checking
  (`rsa.verify`) is an abstract parameter
  `verify : String → String → String → Bool` (core data, signature,
  sender public key).
* Python string serialisation (`str(...)`) of addresses, numbers and
  transaction lists is modelled by explicit serialisers; `str.endswith`
  is modelled over the character list of the string.
* Python `float` values appear in the source only through exact small
  arithmetic (`2.0`, comparisons, `+`/`-`), modelled with exact integer
  arithmetic `Int`.
* `time.time()` is an external input, passed as an explicit `timestamp`
  argument to mining.
* The unbounded proof-of-work search loop in `execute_pow` is modelled by
  `Nat.find` under the hypothesis that a satisfying nonce exists.
* Methods that mutate state are state-passing functions; methods that
  raise exceptions return `Except`/an error component.
-/

/-- Python `str(x)` for values that may be `None` (`str(None) = "None"`);
addresses and signatures are opaque strings. -/
def optStr : Option String → String
  | none => "None"
  | some a => a

/-- The `Transaction` dataclass: `sender_address`, `recipient_address`,
`value`, `signature` (default `None`).  Addresses are public keys, `None`
only for reward transactions. -/
structure Transaction where
  sender_address : Option String
  recipient_address : Option String
  value : Int
  signature : Option String := none
deriving DecidableEq

/-- `Transaction.get_core_data`:
`(str(sender_address) + str(recipient_address) + str(value)).encode()`. -/
def Transaction.get_core_data (t : Transaction) : String :=
  optStr t.sender_address ++ optStr t.recipient_address ++ toString t.value

/-- `Transaction.validate`: `rsa.verify(core_data, signature, sender_address)`.
`True` means the call returns normally, `false` that it raises
(verification failure, missing signature, or `None` sender). -/
def Transaction.validateOk (verify : String → String → String → Bool)
    (t : Transaction) : Bool :=
  match t.sender_address, t.signature with
  | some addr, some sig => verify t.get_core_data sig addr
  | _, _ => false

/-- Python `repr` of a `Transaction` dataclass, as used by
`str(self.transactions)` in `Block.get_header`. -/
def Transaction.reprStr (t : Transaction) : String :=
  "Transaction(sender_address=" ++ optStr t.sender_address ++
  ", recipient_address=" ++ optStr t.recipient_address ++
  ", value=" ++ toString t.value ++
  ", signature=" ++ optStr t.signature ++ ")"

/-- Python `str` of a list of transactions. -/
def listReprStr (l : List Transaction) : String :=
  "[" ++ String.intercalate ", " (l.map Transaction.reprStr) ++ "]"

/-- The `Block` dataclass: `num`, `timestamp`, `prev_block_hash`,
`transactions`, `block_hash` (default `""`), `nonce` (default `0`). -/
structure Block where
  num : Nat
  timestamp : Nat
  prev_block_hash : String
  transactions : List Transaction
  block_hash : String := ""
  nonce : Nat := 0
deriving DecidableEq

/-- `Block.get_header`:
`str(num) + str(timestamp) + str(prev_block_hash) + str(nonce) + str(transactions)`. -/
def Block.get_header (b : Block) : String :=
  toString b.num ++ toString b.timestamp ++ b.prev_block_hash ++
    toString b.nonce ++ listReprStr b.transactions

/-- Python `str.endswith`, over the character list of the string. -/
def strEndsWith (s suffix : String) : Bool :=
  suffix.data.isSuffixOf s.data

/-- The node's proof-of-work predicate: `lambda x: x.endswith('000')`. -/
def proof_of_work_func (x : String) : Bool :=
  strEndsWith x "000"

/-- `REWARD_AMOUNT = 2.0`. -/
def REWARD_AMOUNT : Int := 2

/-- The mutable state of a `BlockchainNode`: `miner_address`, `blocks`,
`pending_transactions`.  (The `proof_of_work_func` field is the fixed
lambda above.) -/
structure BlockchainNode where
  miner_address : String
  blocks : List Block
  pending_transactions : List Transaction
deriving DecidableEq

/-- `BlockchainNode.get_balance`: walk every block and every transaction;
`balance -= value` when the sender equals `address`, `elif` the recipient
equals `address` then `balance += value`; start from `0`. -/
def get_balance (s : BlockchainNode) (address : Option String) : Int :=
  s.blocks.foldl (fun balance b =>
    b.transactions.foldl (fun bal t =>
      if t.sender_address = address then bal - t.value
      else if t.recipient_address = address then bal + t.value
      else bal) balance) 0

/-- The two exceptions `submit_transaction` can raise: the
`rsa.VerificationError` propagated from `Transaction.validate`, and the
insufficient-funds `Exception` (which reports the required and available
amounts). -/
inductive SubmitError where
  | signatureInvalid
  | insufficientFunds (required available : Int)
deriving DecidableEq

/-- `BlockchainNode.submit_transaction`: validate the signature, check
`sender_balance < value`, else append to `pending_transactions`. -/
def submit_transaction (verify : String → String → String → Bool)
    (s : BlockchainNode) (tx : Transaction) : Except SubmitError BlockchainNode :=
  if tx.validateOk verify = false then
    Except.error SubmitError.signatureInvalid
  else
    let sender_balance := get_balance s tx.sender_address
    if sender_balance < tx.value then
      Except.error (SubmitError.insufficientFunds tx.value sender_balance)
    else
      Except.ok { s with pending_transactions := s.pending_transactions ++ [tx] }

/-- The reward transaction appended by `mine_block`:
`Transaction(None, self.miner_address, REWARD_AMOUNT)`. -/
def reward_tx (s : BlockchainNode) : Transaction :=
  { sender_address := none, recipient_address := some s.miner_address,
    value := REWARD_AMOUNT, signature := none }

/-- The block constructed by `mine_block` before proof-of-work: number and
previous hash from the last block (`0` and the sentinel `"-"` when the
chain is empty), a copy of the pending transactions with the reward
transaction appended, default hash and nonce. -/
def next_block (s : BlockchainNode) (ts : Nat) : Block :=
  match s.blocks.getLast? with
  | none =>
      { num := 0, timestamp := ts, prev_block_hash := "-",
        transactions := s.pending_transactions ++ [reward_tx s] }
  | some prev_block =>
      { num := prev_block.num + 1, timestamp := ts,
        prev_block_hash := prev_block.block_hash,
        transactions := s.pending_transactions ++ [reward_tx s] }

/-- Whether the proof-of-work predicate accepts block `b` at nonce `n`
(the body of the `while` condition in `execute_pow`: `b.validate`
recomputes the hash of the header at the current nonce). -/
def powAt (H : String → String) (b : Block) (n : Nat) : Bool :=
  proof_of_work_func (H (Block.get_header { b with nonce := n }))

/-- `BlockchainNode.execute_pow`: reset the nonce to `0` and increment it
until the recomputed hash satisfies the predicate.  The loop is unbounded
in the source; it is modelled by `Nat.find` under the hypothesis that a
satisfying nonce exists.  `Block.validate` stores the recomputed hash, so
the returned block carries the hash of its header at the found nonce. -/
def execute_pow (H : String → String) (b : Block)
    (hx : ∃ n, powAt H b n = true) : Block :=
  let n := Nat.find hx
  { b with nonce := n, block_hash := H (Block.get_header { b with nonce := n }) }

/-- `BlockchainNode.mine_block`: build `next_block`, run proof-of-work,
append the mined block to the chain, clear the pending queue. -/
def mine_block (H : String → String) (s : BlockchainNode) (ts : Nat)
    (hx : ∃ n, powAt H (next_block s ts) n = true) : BlockchainNode :=
  { s with blocks := s.blocks ++ [execute_pow H (next_block s ts) hx],
           pending_transactions := [] }

/-- `BlockchainNode.__init__`: store the miner address, start with empty
chain and queue, and immediately mine the genesis block. -/
def initNode (H : String → String) (miner_address : String) (ts : Nat)
    (hx : ∃ n, powAt H (next_block ⟨miner_address, [], []⟩ ts) n = true) :
    BlockchainNode :=
  mine_block H ⟨miner_address, [], []⟩ ts hx

/-- The two exceptions `validate_chain` can raise: the previous-hash
mismatch and the bad-block-hash failure (which reports the block number). -/
inductive ChainError where
  | prevHashMismatch
  | badBlockHash (num : Nat)
deriving DecidableEq

/-- The loop of `BlockchainNode.validate_chain`, with `prev_hash` the
running previous hash.  Raising an exception is modelled by the `Option
ChainError` component; because `b.validate` stores the recomputed hash on
the block, the traversed prefix is returned with updated `block_hash`
fields (blocks after the point of failure are untouched, and on a
previous-hash mismatch the offending block itself is untouched). -/
def validate_chain_go (H : String → String) (prev_hash : String) :
    List Block → List Block × Option ChainError
  | [] => ([], none)
  | b :: rest =>
    if b.prev_block_hash ≠ prev_hash then
      (b :: rest, some ChainError.prevHashMismatch)
    else
      let h := H b.get_header
      let b' := { b with block_hash := h }
      if proof_of_work_func h = false then
        (b' :: rest, some (ChainError.badBlockHash b.num))
      else
        let p := validate_chain_go H h rest
        (b' :: p.1, p.2)

/-- `BlockchainNode.validate_chain`: walk the chain starting from the
sentinel `"-"`; return the (possibly re-hashed) state together with the
raised exception, if any. -/
def validate_chain (H : String → String) (s : BlockchainNode) :
    BlockchainNode × Option ChainError :=
  let p := validate_chain_go H "-" s.blocks
  ({ s with blocks := p.1 }, p.2)

/-- Ledger states reachable from construction by any sequence of
`submit_transaction` (successful calls; failing calls raise before any
mutation) and `mine_block` calls. -/
inductive Reachable (H : String → String)
    (verify : String → String → String → Bool) : BlockchainNode → Prop where
  | init (miner_address : String) (ts : Nat)
      (hx : ∃ n, powAt H (next_block ⟨miner_address, [], []⟩ ts) n = true) :
      Reachable H verify (initNode H miner_address ts hx)
  | submit {s s' : BlockchainNode} (tx : Transaction) :
      Reachable H verify s → submit_transaction verify s tx = Except.ok s' →
      Reachable H verify s'
  | mine {s : BlockchainNode} (ts : Nat)
      (hx : ∃ n, powAt H (next_block s ts) n = true) :
      Reachable H verify s → Reachable H verify (mine_block H s ts hx)

/-! ## Auxiliary definitions used to state and prove the claims -/

/-- The contribution of one transaction to `get_balance address` (the body
of the inner loop: `-value` when the sender matches, `elif` the recipient
matches then `+value`, else `0`). -/
def txContrib (address : Option String) (t : Transaction) : Int :=
  if t.sender_address = address then -t.value
  else if t.recipient_address = address then t.value
  else 0

/-- All transactions stored in the chain, in chain order. -/
def chainTxs (s : BlockchainNode) : List Transaction :=
  (s.blocks.map Block.transactions).flatten

/-- The (non-null) addresses mentioned by a transaction. -/
def txAddrList (t : Transaction) : List String :=
  t.sender_address.toList ++ t.recipient_address.toList

/-- The set of addresses occurring in the chain. -/
def chainAddresses (s : BlockchainNode) : Finset String :=
  ((chainTxs s).map txAddrList).flatten.toFinset

/-- Modelled from the spec words of the balance claim: the sum over every
transaction of minus `value` whenever the sender matches **plus** `value`
whenever the recipient matches, the two cases contributing independently
(to be compared with `get_balance`, whose `elif` makes them exclusive). -/
def get_balance_spec (s : BlockchainNode) (address : Option String) : Int :=
  ((chainTxs s).map (fun t =>
    (if t.sender_address = address then -t.value else 0) +
    (if t.recipient_address = address then t.value else 0))).sum

/-- The hash the `validate_chain` loop would expect from the block after
block list `l`, starting from expected hash `prev_hash`. -/
def lastHash (prev_hash : String) : List Block → String
  | [] => prev_hash
  | b :: rest => lastHash b.block_hash rest

/-- The integrity invariant of a mined chain, starting from expected
previous hash `prev_hash`: every block links to its predecessor, caches
exactly the hash of its own header, and that hash satisfies the
proof-of-work predicate. -/
def goodFrom (H : String → String) (prev_hash : String) : List Block → Bool
  | [] => true
  | b :: rest =>
    (b.prev_block_hash == prev_hash) &&
    (b.block_hash == H b.get_header) &&
    proof_of_work_func (H b.get_header) &&
    goodFrom H b.block_hash rest

/-- A block with its cached hash blanked, to compare all other fields. -/
def stripHash (b : Block) : Block :=
  { b with block_hash := "" }

/-- Submit a list of transactions in order, stopping at the first
failure. -/
def submitAll (verify : String → String → String → Bool)
    (s : BlockchainNode) : List Transaction → Except SubmitError BlockchainNode
  | [] => Except.ok s
  | tx :: rest =>
    match submit_transaction verify s tx with
    | Except.ok s' => submitAll verify s' rest
    | Except.error e => Except.error e

/-- The net issuance of one transaction into the chain: reward
transactions (null sender) mint their value, transfers with a sender
mint nothing. -/
def rewardIssue (t : Transaction) : Int :=
  if t.sender_address = none then t.value else 0

/-! ## Concrete instances used by witnesses and counterexamples

`H0`, `H1`, `Hbad` and `HW` are concrete stand-ins for the abstract hash
function; `verifyT`/`verifyF` for the abstract signature checker. -/

/-- A hash function whose digests always satisfy the difficulty
predicate. -/
def H0 : String → String := fun _ => "000"

/-- A hash function that changes with its input but always satisfies the
difficulty predicate. -/
def H1 : String → String := fun s => s ++ "000"

/-- A hash function whose digests never satisfy the difficulty
predicate. -/
def Hbad : String → String := fun _ => "1"

/-- A signature checker that accepts everything. -/
def verifyT : String → String → String → Bool := fun _ _ _ => true

/-- A signature checker that rejects everything. -/
def verifyF : String → String → String → Bool := fun _ _ _ => false

/-- The pre-genesis state of a node for miner `"m"`. -/
def nodeM : BlockchainNode := ⟨"m", [], []⟩

def hx0 : ∃ n, powAt H0 (next_block nodeM 0) n = true := ⟨0, by decide⟩

/-- A freshly constructed node (genesis block mined with `H0`). -/
def s0c : BlockchainNode := initNode H0 "m" 0 hx0

/-- A self-transfer: sender and recipient are both the miner `"m"`. -/
def txSelf : Transaction := ⟨some "m", some "m", 1, some "sig"⟩

def s1self : BlockchainNode := { s0c with pending_transactions := [txSelf] }

def hxSelf : ∃ n, powAt H0 (next_block s1self 1) n = true := ⟨0, by decide⟩

/-- The node after submitting the self-transfer and mining. -/
def s2self : BlockchainNode := mine_block H0 s1self 1 hxSelf

/-- A transfer of the miner's whole balance to `"r"`. -/
def txDrain : Transaction := ⟨some "m", some "r", 2, some "sig"⟩

def s1drain : BlockchainNode := { s0c with pending_transactions := [txDrain, txDrain] }

def hxDrain : ∃ n, powAt H0 (next_block s1drain 1) n = true := ⟨0, by decide⟩

/-- The node after submitting the whole-balance transfer twice and
mining. -/
def s2drain : BlockchainNode := mine_block H0 s1drain 1 hxDrain

/-- A negative-value transfer from `"a"` to the miner `"m"`. -/
def txNeg : Transaction := ⟨some "a", some "m", -1, some "sig"⟩

def s1neg : BlockchainNode := { s0c with pending_transactions := [txNeg] }

def hxNeg : ∃ n, powAt H0 (next_block s1neg 1) n = true := ⟨0, by decide⟩

/-- The node after submitting the negative-value transfer and mining. -/
def s2neg : BlockchainNode := mine_block H0 s1neg 1 hxNeg

/-- A transfer funding address `"a"` from the miner. -/
def txFund : Transaction := ⟨some "m", some "a", 2, some "sig"⟩

def sFund1 : BlockchainNode := { s0c with pending_transactions := [txFund] }

def hxFund : ∃ n, powAt H0 (next_block sFund1 1) n = true := ⟨0, by decide⟩

/-- A two-block chain in which non-miner address `"a"` holds balance 2. -/
def sFund : BlockchainNode := mine_block H0 sFund1 1 hxFund

/-- A transfer of the whole balance of `"a"` to `"r"`. -/
def txSpend : Transaction := ⟨some "a", some "r", 2, some "sig"⟩

def hxSpend : ∃ n, powAt H0 (next_block { sFund with pending_transactions := [txSpend, txSpend] } 2) n = true :=
  ⟨0, by decide⟩

/-- A negative-value transfer between two non-miner addresses. -/
def txNeg2 : Transaction := ⟨some "a", some "r", -1, some "sig"⟩

def hxNeg2 : ∃ n, powAt H0 (next_block { s0c with pending_transactions := [txNeg2] } 1) n = true :=
  ⟨0, by decide⟩

/-- A handcrafted single-block state whose cached hash is stale. -/
def sBad : BlockchainNode := ⟨"m", [⟨0, 0, "-", [], "stale", 0⟩], []⟩

def hxH1 : ∃ n, powAt H1 (next_block nodeM 0) n = true := ⟨0, by decide⟩

/-- A freshly constructed node whose genesis block was mined with `H1`. -/
def sH1 : BlockchainNode := initNode H1 "m" 0 hxH1

/-- The genesis block of `sH1`. -/
def bH1 : Block := execute_pow H1 (next_block nodeM 0) hxH1

/-- `bH1` with its reward transaction value tampered from 2 to 3, without
re-mining. -/
def bH1tam : Block := { bH1 with transactions := [⟨none, some "m", 3, none⟩] }

/-- `sH1` with its genesis block tampered. -/
def sH1tam : BlockchainNode := { sH1 with blocks := [bH1tam] }

/-- A block used for a handcrafted mined chain. -/
def bW0 : Block := ⟨0, 0, "-", [], "", 0⟩

/-- A hash function accepting exactly the header of `bW0`. -/
def HW : String → String :=
  fun s => if s = Block.get_header bW0 then "000" else "1"

/-- `bW0` with its hash cached, forming a valid one-block chain under
`HW`. -/
def bW : Block := { bW0 with block_hash := HW (Block.get_header bW0) }

/-- `bW` with a tampered timestamp. -/
def bWtam : Block := { bW with timestamp := 1 }

/-- A block with arbitrary field values, used to exercise the
proof-of-work search. -/
def bC8 : Block := ⟨5, 7, "p", [], "", 3⟩

def hxC8 : ∃ n, powAt H0 bC8 n = true := ⟨0, by decide⟩

/-- A transaction whose signature check fails under `verifyF`. -/
def txBad : Transaction := ⟨some "x", some "y", 5, some "sig"⟩

/-- A zero-value transaction accepted from a zero-balance sender. -/
def txZero : Transaction := ⟨some "x", some "y", 0, some "sig"⟩

def hxC3 : ∃ n, powAt H0 (next_block s0c 1) n = true := ⟨0, by decide⟩

/-! ## Helper lemmas: balances as sums -/

theorem inner_foldl_eq (address : Option String) :
    ∀ (l : List Transaction) (init : Int),
      l.foldl (fun bal t =>
        if t.sender_address = address then bal - t.value
        else if t.recipient_address = address then bal + t.value
        else bal) init = init + (l.map (txContrib address)).sum
  | [], _ => by simp
  | t :: l, init => by
    rw [List.foldl_cons, inner_foldl_eq address l]
    simp only [List.map_cons, List.sum_cons, txContrib]
    split_ifs <;> ring

theorem outer_foldl_eq (address : Option String) :
    ∀ (bs : List Block) (init : Int),
      bs.foldl (fun balance b =>
        b.transactions.foldl (fun bal t =>
          if t.sender_address = address then bal - t.value
          else if t.recipient_address = address then bal + t.value
          else bal) balance) init
      = init + (((bs.map Block.transactions).flatten).map (txContrib address)).sum
  | [], _ => by simp
  | b :: bs, init => by
    rw [List.foldl_cons, outer_foldl_eq address bs, inner_foldl_eq address]
    simp only [List.map_cons, List.flatten_cons, List.map_append, List.sum_append]
    ring

theorem get_balance_eq_sum (s : BlockchainNode) (address : Option String) :
    get_balance s address = ((chainTxs s).map (txContrib address)).sum := by
  unfold get_balance chainTxs
  rw [outer_foldl_eq]
  ring

theorem get_balance_unseen (s : BlockchainNode) (address : Option String)
    (h : ∀ t ∈ chainTxs s, t.sender_address ≠ address ∧ t.recipient_address ≠ address) :
    get_balance s address = 0 := by
  rw [get_balance_eq_sum]
  apply List.sum_eq_zero
  intro x hx
  rcases List.mem_map.1 hx with ⟨t, ht, rfl⟩
  rcases h t ht with ⟨h1, h2⟩
  simp [txContrib, h1, h2]

theorem get_balance_congr {s s' : BlockchainNode} (address : Option String)
    (h : s.blocks = s'.blocks) : get_balance s address = get_balance s' address := by
  unfold get_balance
  rw [h]

/-! ## Helper lemmas: submit and mine -/

theorem submit_ok_iff {verify : String → String → String → Bool}
    {s s' : BlockchainNode} {tx : Transaction} :
    submit_transaction verify s tx = Except.ok s' ↔
      (tx.validateOk verify = true ∧
       ¬ get_balance s tx.sender_address < tx.value ∧
       s' = { s with pending_transactions := s.pending_transactions ++ [tx] }) := by
  by_cases h1 : tx.validateOk verify = false
  · simp [submit_transaction, h1]
  · rw [Bool.not_eq_false] at h1
    by_cases h2 : get_balance s tx.sender_address < tx.value
    · simp [submit_transaction, h1, h2]
    · simp [submit_transaction, h1, h2, eq_comm]

theorem mine_block_blocks (H : String → String) (s : BlockchainNode) (ts : Nat)
    (hx : ∃ n, powAt H (next_block s ts) n = true) :
    (mine_block H s ts hx).blocks = s.blocks ++ [execute_pow H (next_block s ts) hx] := rfl

theorem mine_block_pending (H : String → String) (s : BlockchainNode) (ts : Nat)
    (hx : ∃ n, powAt H (next_block s ts) n = true) :
    (mine_block H s ts hx).pending_transactions = [] := rfl

theorem execute_pow_transactions (H : String → String) (b : Block)
    (hx : ∃ n, powAt H b n = true) :
    (execute_pow H b hx).transactions = b.transactions := rfl

theorem execute_pow_prev (H : String → String) (b : Block)
    (hx : ∃ n, powAt H b n = true) :
    (execute_pow H b hx).prev_block_hash = b.prev_block_hash := rfl

theorem execute_pow_header (H : String → String) (b : Block)
    (hx : ∃ n, powAt H b n = true) :
    Block.get_header (execute_pow H b hx) =
      Block.get_header { b with nonce := Nat.find hx } := rfl

theorem execute_pow_hash (H : String → String) (b : Block)
    (hx : ∃ n, powAt H b n = true) :
    (execute_pow H b hx).block_hash = H (Block.get_header (execute_pow H b hx)) := rfl

theorem execute_pow_pow (H : String → String) (b : Block)
    (hx : ∃ n, powAt H b n = true) :
    proof_of_work_func (H (Block.get_header (execute_pow H b hx))) = true :=
  Nat.find_spec hx

/-! ## Helper lemmas: chain integrity -/

theorem lastHash_getLast : ∀ (l : List Block) (ph : String),
    lastHash ph l = (match l.getLast? with | none => ph | some b => b.block_hash)
  | [], _ => rfl
  | [_], _ => rfl
  | b :: c :: t, ph => by
    show lastHash b.block_hash (c :: t) = _
    rw [lastHash_getLast (c :: t) b.block_hash, List.getLast?_cons_cons]
    cases h : (c :: t).getLast? with
    | none => simp at h
    | some x => rfl

theorem next_block_prev (s : BlockchainNode) (ts : Nat) :
    (next_block s ts).prev_block_hash = lastHash "-" s.blocks := by
  rw [lastHash_getLast]
  unfold next_block
  cases s.blocks.getLast? <;> rfl

theorem next_block_transactions (s : BlockchainNode) (ts : Nat) :
    (next_block s ts).transactions = s.pending_transactions ++ [reward_tx s] := by
  unfold next_block
  cases s.blocks.getLast? <;> rfl

theorem next_block_num (s : BlockchainNode) (ts : Nat) :
    (next_block s ts).num =
      (match s.blocks.getLast? with | none => 0 | some pb => pb.num + 1) := by
  unfold next_block
  cases s.blocks.getLast? <;> rfl

theorem next_block_prevMatch (s : BlockchainNode) (ts : Nat) :
    (next_block s ts).prev_block_hash =
      (match s.blocks.getLast? with | none => "-" | some pb => pb.block_hash) := by
  unfold next_block
  cases s.blocks.getLast? <;> rfl

theorem goodFrom_cons_iff {H : String → String} {ph : String} {b : Block}
    {rest : List Block} :
    goodFrom H ph (b :: rest) = true ↔
      (b.prev_block_hash = ph ∧ b.block_hash = H b.get_header ∧
       proof_of_work_func (H b.get_header) = true ∧
       goodFrom H b.block_hash rest = true) := by
  show (_ && _ && _ && _) = true ↔ _
  simp [Bool.and_eq_true, and_assoc]

theorem goodFrom_append (H : String → String) :
    ∀ (l₁ : List Block) (ph : String) (l₂ : List Block),
      goodFrom H ph (l₁ ++ l₂) = (goodFrom H ph l₁ && goodFrom H (lastHash ph l₁) l₂)
  | [], ph, l₂ => by simp [goodFrom, lastHash]
  | b :: l₁, ph, l₂ => by
    simp only [List.cons_append, goodFrom, lastHash, List.append_eq]
    rw [goodFrom_append H l₁ b.block_hash l₂]
    simp [Bool.and_assoc]

theorem goodFrom_head {H : String → String} {ph : String} {b : Block}
    {rest : List Block} (h : goodFrom H ph (b :: rest) = true) :
    b.prev_block_hash = ph :=
  (goodFrom_cons_iff.1 h).1

theorem goodFrom_pow (H : String → String) :
    ∀ (l : List Block) (ph : String), goodFrom H ph l = true →
      ∀ b ∈ l, proof_of_work_func (H b.get_header) = true
  | [], _, _ => by simp
  | b :: rest, ph, h => by
    rw [goodFrom_cons_iff] at h
    intro c hc
    rcases List.mem_cons.1 hc with rfl | hc
    · exact h.2.2.1
    · exact goodFrom_pow H rest b.block_hash h.2.2.2 c hc

theorem goodFrom_stored (H : String → String) :
    ∀ (l : List Block) (ph : String), goodFrom H ph l = true →
      ∀ b ∈ l, b.block_hash = H b.get_header
  | [], _, _ => by simp
  | b :: rest, ph, h => by
    rw [goodFrom_cons_iff] at h
    intro c hc
    rcases List.mem_cons.1 hc with rfl | hc
    · exact h.2.1
    · exact goodFrom_stored H rest b.block_hash h.2.2.2 c hc

theorem goodFrom_linked (H : String → String) :
    ∀ (l : List Block) (ph : String), goodFrom H ph l = true →
      ∀ (i : Nat) (h1 : i + 1 < l.length),
        (l.get ⟨i + 1, h1⟩).prev_block_hash
          = (l.get ⟨i, Nat.lt_of_succ_lt h1⟩).block_hash
  | [], _, _ => by intro i h1; simp at h1
  | b :: rest, ph, h => by
    rw [goodFrom_cons_iff] at h
    intro i h1
    cases i with
    | zero =>
      cases rest with
      | nil => simp at h1
      | cons c t => exact goodFrom_head h.2.2.2
    | succ j =>
      exact goodFrom_linked H rest b.block_hash h.2.2.2 j
        (Nat.lt_of_succ_lt_succ h1)

theorem mine_good (H : String → String) (s : BlockchainNode) (ts : Nat)
    (hx : ∃ n, powAt H (next_block s ts) n = true)
    (h : goodFrom H "-" s.blocks = true) :
    goodFrom H "-" (mine_block H s ts hx).blocks = true := by
  rw [mine_block_blocks, goodFrom_append, Bool.and_eq_true]
  refine ⟨h, ?_⟩
  rw [goodFrom_cons_iff]
  refine ⟨?_, rfl, Nat.find_spec hx, rfl⟩
  rw [execute_pow_prev, next_block_prev]

theorem reachable_good {H : String → String}
    {verify : String → String → String → Bool} {s : BlockchainNode}
    (h : Reachable H verify s) :
    s.blocks ≠ [] ∧ goodFrom H "-" s.blocks = true := by
  induction h with
  | init miner ts hx =>
    exact ⟨by simp [initNode, mine_block], mine_good H _ ts hx rfl⟩
  | submit tx hr hok ih =>
    rcases submit_ok_iff.1 hok with ⟨-, -, rfl⟩
    exact ih
  | mine ts hx hr ih =>
    exact ⟨by simp [mine_block], mine_good H _ ts hx ih.2⟩

theorem go_strip (H : String → String) :
    ∀ (l : List Block) (ph : String),
      ((validate_chain_go H ph l).1).map stripHash = l.map stripHash
  | [], _ => rfl
  | b :: rest, ph => by
    simp only [validate_chain_go]
    by_cases h1 : b.prev_block_hash ≠ ph
    · rw [if_pos h1]
    · rw [if_neg h1]
      by_cases h2 : proof_of_work_func (H b.get_header) = false
      · rw [if_pos h2]
        simp [stripHash]
      · rw [if_neg h2]
        simp only [List.map_cons]
        rw [go_strip H rest (H b.get_header)]
        simp [stripHash]

theorem validate_chain_strip (H : String → String) (s : BlockchainNode) :
    ((validate_chain H s).1).miner_address = s.miner_address ∧
    ((validate_chain H s).1).pending_transactions = s.pending_transactions ∧
    (((validate_chain H s).1).blocks).map stripHash = s.blocks.map stripHash :=
  ⟨rfl, rfl, go_strip H s.blocks "-"⟩

theorem go_good_append (H : String → String) :
    ∀ (l₁ : List Block) (ph : String) (rest : List Block),
      goodFrom H ph l₁ = true →
      validate_chain_go H ph (l₁ ++ rest) =
        (l₁ ++ (validate_chain_go H (lastHash ph l₁) rest).1,
         (validate_chain_go H (lastHash ph l₁) rest).2)
  | [], _, rest, _ => by simp [lastHash]
  | b :: l₁, ph, rest, h => by
    rw [goodFrom_cons_iff] at h
    obtain ⟨h1, h2, h3, h4⟩ := h
    simp only [List.cons_append, validate_chain_go, lastHash, List.append_eq]
    rw [if_neg (by simp [h1])]
    rw [if_neg (by simp [h3])]
    rw [← h2, go_good_append H l₁ b.block_hash rest h4]

theorem validate_chain_good (H : String → String) (s : BlockchainNode)
    (h : goodFrom H "-" s.blocks = true) :
    validate_chain H s = (s, none) := by
  unfold validate_chain
  have h2 := go_good_append H s.blocks "-" [] h
  rw [List.append_nil] at h2
  rw [h2]
  simp [validate_chain_go]

theorem tamper_fails (H : String → String) (mi : String)
    (pend : List Transaction) (l₁ : List Block) (b : Block) (l₂ : List Block)
    (b' : Block)
    (hgood : goodFrom H "-" (l₁ ++ b :: l₂) = true)
    (hprev : b'.prev_block_hash = b.prev_block_hash)
    (hhash : H b'.get_header ≠ H b.get_header)
    (hfail : l₂ ≠ [] ∨ proof_of_work_func (H b'.get_header) = false) :
    (validate_chain H ⟨mi, l₁ ++ b' :: l₂, pend⟩).2 ≠ none := by
  rw [goodFrom_append, Bool.and_eq_true] at hgood
  obtain ⟨hg1, hg2⟩ := hgood
  rw [goodFrom_cons_iff] at hg2
  obtain ⟨hb1, hb2, hb3, hb4⟩ := hg2
  unfold validate_chain
  rw [go_good_append H l₁ "-" (b' :: l₂) hg1]
  simp only [validate_chain_go]
  rw [if_neg (by simp [hprev, hb1])]
  by_cases hp : proof_of_work_func (H b'.get_header) = false
  · rw [if_pos hp]
    simp
  · rw [if_neg hp]
    cases l₂ with
    | nil =>
      rcases hfail with hne | hpf
      · exact absurd rfl hne
      · exact absurd hpf hp
    | cons c t =>
      have hc : c.prev_block_hash = b.block_hash := goodFrom_head hb4
      have hcne : c.prev_block_hash ≠ H b'.get_header := by
        rw [hc, hb2]
        exact fun hcontra => hhash hcontra.symm
      simp only [validate_chain_go]
      rw [if_pos hcne]
      simp

/-! ## Helper lemmas: conservation of value -/

theorem validateOk_sender {verify : String → String → String → Bool}
    {t : Transaction} (h : t.validateOk verify = true) :
    t.sender_address ≠ none := by
  intro hs
  simp [Transaction.validateOk, hs] at h

theorem chainTxs_mine (H : String → String) (s : BlockchainNode) (ts : Nat)
    (hx : ∃ n, powAt H (next_block s ts) n = true) :
    chainTxs (mine_block H s ts hx)
      = chainTxs s ++ (s.pending_transactions ++ [reward_tx s]) := by
  unfold chainTxs
  rw [mine_block_blocks, List.map_append, List.flatten_append]
  simp [execute_pow_transactions, next_block_transactions]

theorem balance_after_mine (H : String → String) (s : BlockchainNode) (ts : Nat)
    (hx : ∃ n, powAt H (next_block s ts) n = true) (a : Option String) :
    get_balance (mine_block H s ts hx) a =
      get_balance s a
        + ((s.pending_transactions ++ [reward_tx s]).map (txContrib a)).sum := by
  rw [get_balance_eq_sum, get_balance_eq_sum, chainTxs_mine, List.map_append,
    List.sum_append]

theorem sum_map_const {α : Type} (c : Int) :
    ∀ (l : List α) (f : α → Int), (∀ x ∈ l, f x = c) →
      (l.map f).sum = l.length * c
  | [], _, _ => by simp
  | x :: l, f, h => by
    simp only [List.map_cons, List.sum_cons, List.length_cons]
    rw [h x (by simp), sum_map_const c l f (fun y hy => h y (by simp [hy]))]
    push_cast
    ring

theorem submitAll_ok {verify : String → String → String → Bool}
    (a : String) (B : Int) :
    ∀ (txs : List Transaction) (s : BlockchainNode),
      (∀ tx ∈ txs,
        tx.validateOk verify = true ∧ tx.sender_address = some a ∧ tx.value = B) →
      get_balance s (some a) = B →
      submitAll verify s txs =
        Except.ok { s with pending_transactions := s.pending_transactions ++ txs }
  | [], s, _, _ => by simp [submitAll]
  | tx :: txs, s, h, hbal => by
    obtain ⟨hv, hs, hB⟩ := h tx (by simp)
    have hns : ¬ get_balance s tx.sender_address < tx.value := by
      rw [hs, hbal, hB]; exact lt_irrefl B
    have hsub : submit_transaction verify s tx =
        Except.ok { s with pending_transactions := s.pending_transactions ++ [tx] } :=
      submit_ok_iff.2 ⟨hv, hns, rfl⟩
    have hrec := submitAll_ok a B txs
      { s with pending_transactions := s.pending_transactions ++ [tx] }
      (fun t ht => h t (by simp [ht])) hbal
    simp only [submitAll]
    rw [hsub]
    show submitAll verify { s with pending_transactions := s.pending_transactions ++ [tx] } txs = _
    rw [hrec]
    simp [List.append_assoc]

theorem sum_finset_swap (S : Finset String) :
    ∀ (L : List Transaction),
      ∑ a ∈ S, (L.map (txContrib (some a))).sum
        = (L.map (fun t => ∑ a ∈ S, txContrib (some a) t)).sum
  | [] => by simp
  | t :: L => by
    simp only [List.map_cons, List.sum_cons]
    rw [Finset.sum_add_distrib, sum_finset_swap S L]

theorem sum_txContrib (S : Finset String) (t : Transaction)
    (hs : ∀ x, t.sender_address = some x → x ∈ S)
    (hr : ∀ x, t.recipient_address = some x → x ∈ S)
    (hnr : t.sender_address = none → t.recipient_address ≠ none)
    (hsr : t.sender_address ≠ none →
      t.recipient_address ≠ none ∧ t.recipient_address ≠ t.sender_address) :
    ∑ a ∈ S, txContrib (some a) t = rewardIssue t := by
  rcases hsa : t.sender_address with _ | s0
  · rcases hra : t.recipient_address with _ | r0
    · exact absurd hra (hnr hsa)
    · have hr0 : r0 ∈ S := hr r0 hra
      have hpt : ∀ a ∈ S, txContrib (some a) t = (if a = r0 then t.value else 0) := by
        intro a _
        by_cases hc : a = r0
        · subst hc; simp [txContrib, hsa, hra]
        · simp [txContrib, hsa, hra, hc, Ne.symm hc]
      rw [Finset.sum_congr rfl hpt, Finset.sum_ite_eq' S r0 (fun _ => t.value),
        if_pos hr0]
      simp [rewardIssue, hsa]
  · obtain ⟨hrn, hrne⟩ := hsr (by rw [hsa]; simp)
    rcases hra : t.recipient_address with _ | r0
    · exact absurd hra hrn
    · have hr0 : r0 ∈ S := hr r0 hra
      have hs0 : s0 ∈ S := hs s0 hsa
      have hners : r0 ≠ s0 := by
        rw [hsa, hra] at hrne
        simpa using hrne
      have hpt : ∀ a ∈ S, txContrib (some a) t =
          (if a = s0 then -t.value else 0) + (if a = r0 then t.value else 0) := by
        intro a _
        by_cases h1 : a = s0
        · subst h1
          simp [txContrib, hsa, hra, Ne.symm hners]
        · by_cases h2 : a = r0
          · subst h2
            simp [txContrib, hsa, hra, Ne.symm h1, hners]
          · simp [txContrib, hsa, hra, h1, h2, Ne.symm h1, Ne.symm h2]
      rw [Finset.sum_congr rfl hpt, Finset.sum_add_distrib,
        Finset.sum_ite_eq' S s0 (fun _ => -t.value),
        Finset.sum_ite_eq' S r0 (fun _ => t.value), if_pos hs0, if_pos hr0]
      simp [rewardIssue, hsa]

theorem addr_mem_chainAddresses {s : BlockchainNode} {t : Transaction}
    (ht : t ∈ chainTxs s) :
    (∀ x, t.sender_address = some x → x ∈ chainAddresses s) ∧
    (∀ x, t.recipient_address = some x → x ∈ chainAddresses s) := by
  constructor <;> intro x hx <;>
  · unfold chainAddresses
    rw [List.mem_toFinset, List.mem_flatten]
    exact ⟨txAddrList t, List.mem_map_of_mem _ ht, by simp [txAddrList, hx]⟩

theorem sum_balances (s : BlockchainNode)
    (hpair : ∀ t ∈ chainTxs s,
      (t.sender_address = none → t.recipient_address ≠ none) ∧
      (t.sender_address ≠ none →
        t.recipient_address ≠ none ∧ t.recipient_address ≠ t.sender_address)) :
    ∑ a ∈ chainAddresses s, get_balance s (some a)
      = ((chainTxs s).map rewardIssue).sum := by
  calc ∑ a ∈ chainAddresses s, get_balance s (some a)
      = ∑ a ∈ chainAddresses s, ((chainTxs s).map (txContrib (some a))).sum :=
        Finset.sum_congr rfl (fun a _ => get_balance_eq_sum s (some a))
    _ = ((chainTxs s).map
          (fun t => ∑ a ∈ chainAddresses s, txContrib (some a) t)).sum :=
        sum_finset_swap (chainAddresses s) (chainTxs s)
    _ = ((chainTxs s).map rewardIssue).sum := by
        refine congrArg List.sum (List.map_congr_left ?_)
        intro t ht
        exact sum_txContrib (chainAddresses s) t
          (addr_mem_chainAddresses ht).1 (addr_mem_chainAddresses ht).2
          (hpair t ht).1 (hpair t ht).2

theorem mine_inv (H : String → String) (s : BlockchainNode) (ts : Nat)
    (hx : ∃ n, powAt H (next_block s ts) n = true)
    (h1 : ∀ t ∈ s.pending_transactions, t.sender_address ≠ none)
    (h2 : ∀ t ∈ chainTxs s, t.sender_address = none → t.recipient_address ≠ none)
    (h3 : ((chainTxs s).map rewardIssue).sum = REWARD_AMOUNT * s.blocks.length) :
    (∀ t ∈ (mine_block H s ts hx).pending_transactions, t.sender_address ≠ none) ∧
    (∀ t ∈ chainTxs (mine_block H s ts hx),
      t.sender_address = none → t.recipient_address ≠ none) ∧
    ((chainTxs (mine_block H s ts hx)).map rewardIssue).sum
      = REWARD_AMOUNT * (mine_block H s ts hx).blocks.length := by
  refine ⟨by simp [mine_block], ?_, ?_⟩
  · rw [chainTxs_mine]
    intro t ht hsn
    rcases List.mem_append.1 ht with ht | ht
    · exact h2 t ht hsn
    · rcases List.mem_append.1 ht with ht | ht
      · exact absurd hsn (h1 t ht)
      · rcases List.mem_singleton.1 ht with rfl
        simp [reward_tx]
  · rw [chainTxs_mine, List.map_append, List.sum_append, h3, List.map_append,
      List.sum_append]
    have hp : ((s.pending_transactions).map rewardIssue).sum = 0 :=
      List.sum_eq_zero (fun x hxm => by
        rcases List.mem_map.1 hxm with ⟨t, ht, rfl⟩
        simp [rewardIssue, h1 t ht])
    have hlen : (mine_block H s ts hx).blocks.length = s.blocks.length + 1 := by
      rw [mine_block_blocks]; simp
    rw [hp, hlen]
    simp [rewardIssue, reward_tx]
    ring

theorem reachable_inv {H : String → String}
    {verify : String → String → String → Bool} {s : BlockchainNode}
    (h : Reachable H verify s) :
    (∀ t ∈ s.pending_transactions, t.sender_address ≠ none) ∧
    (∀ t ∈ chainTxs s, t.sender_address = none → t.recipient_address ≠ none) ∧
    ((chainTxs s).map rewardIssue).sum = REWARD_AMOUNT * s.blocks.length := by
  induction h with
  | init miner ts hx =>
    exact mine_inv H _ ts hx (by simp) (by simp [chainTxs]) (by simp [chainTxs])
  | submit tx hr hok ih =>
    rcases submit_ok_iff.1 hok with ⟨hv, -, rfl⟩
    refine ⟨?_, ih.2.1, ih.2.2⟩
    intro t ht
    rcases List.mem_append.1 ht with ht | ht
    · exact ih.1 t ht
    · rcases List.mem_singleton.1 ht with rfl
      exact validateOk_sender hv
  | mine ts hx hr ih =>
    exact mine_inv H _ ts hx ih.1 ih.2.1 ih.2.2

/-! ## Claim theorems -/

/-- C1: every ledger state reachable from construction by any sequence of
submit and mine calls has a non-empty block sequence, its first block
carries the sentinel previous hash `"-"`, every later block's
`prev_block_hash` equals its predecessor's `block_hash`, and every stored
block's recomputed header hash satisfies the proof-of-work predicate. -/
theorem C1_reachable_chain_invariant {H : String → String}
    {verify : String → String → String → Bool} {s : BlockchainNode}
    (h : Reachable H verify s) :
    s.blocks ≠ [] ∧
    (∀ b0, s.blocks.head? = some b0 → b0.prev_block_hash = "-") ∧
    (∀ (i : Nat) (h1 : i + 1 < s.blocks.length),
      (s.blocks.get ⟨i + 1, h1⟩).prev_block_hash
        = (s.blocks.get ⟨i, Nat.lt_of_succ_lt h1⟩).block_hash) ∧
    (∀ b ∈ s.blocks, proof_of_work_func (H b.get_header) = true) := by
  obtain ⟨hne, hgood⟩ := reachable_good h
  refine ⟨hne, ?_, goodFrom_linked H s.blocks "-" hgood,
    goodFrom_pow H s.blocks "-" hgood⟩
  intro b0 hb0
  cases hbl : s.blocks with
  | nil => rw [hbl] at hb0; cases hb0
  | cons b rest =>
    rw [hbl] at hb0 hgood
    rw [List.head?_cons] at hb0
    injection hb0 with hb0
    rw [← hb0]
    exact goodFrom_head hgood

/-- Witness for C1: the conclusion instantiated on the concrete reachable
two-block chain `s2self`. -/
theorem C1_reachable_chain_invariant_witness : s2self.blocks ≠ [] :=
  (@C1_reachable_chain_invariant H0 verifyT s2self
    (Reachable.mine 1 hxSelf
      (Reachable.submit txSelf (Reachable.init "m" 0 hx0) rfl))).1

/-- C2 counterexample: on the reachable chain `s2self`, whose second block
contains a self-transfer of value 1, `get_balance` returns 3 while the
claimed independent-contribution sum (`get_balance_spec`) returns 4: the
`elif` makes the decrement and the increment mutually exclusive, so a
self-transfer nets the decrement alone. -/
theorem C2_balance_counterexample :
    Reachable H0 verifyT s2self ∧
    get_balance s2self (some "m") = 3 ∧
    get_balance_spec s2self (some "m") = 4 :=
  ⟨Reachable.mine 1 hxSelf
    (Reachable.submit txSelf (Reachable.init "m" 0 hx0) rfl),
   by decide, by decide⟩

/-- C2 amended: for every chain state and address, `get_balance` equals
the sum over every stored transaction of its contribution, where a
transaction contributes minus its value when its sender matches and
otherwise (`elif`) plus its value when its recipient matches; and it
returns 0 for an address appearing in no transaction. -/
theorem C2_balance_amended (s : BlockchainNode) (address : Option String) :
    get_balance s address = ((chainTxs s).map (txContrib address)).sum ∧
    ((∀ t ∈ chainTxs s,
        t.sender_address ≠ address ∧ t.recipient_address ≠ address) →
      get_balance s address = 0) :=
  ⟨get_balance_eq_sum s address, get_balance_unseen s address⟩

/-- Witness for C2 (amended): the address `"z"` appears in no transaction
of `s2self`, so its balance is 0. -/
theorem C2_balance_amended_witness : get_balance s2self (some "z") = 0 :=
  (C2_balance_amended s2self (some "z")).2 (by decide)

/-- C3: a mineBlock call (that is, one whose unbounded proof-of-work
search finds a nonce) empties the pending queue and grows the chain by
exactly one block, whose transaction list is the prior pending queue in
order followed by exactly one reward transaction (null sender, value
`REWARD_AMOUNT`) as its last element, whose number is the previous
block's number plus one (or 0 for an empty chain), and whose previous
hash is the previous block's cached hash (or the sentinel `"-"`). -/
theorem C3_mine_block (H : String → String) (s : BlockchainNode) (ts : Nat)
    (hx : ∃ n, powAt H (next_block s ts) n = true) :
    (mine_block H s ts hx).pending_transactions = [] ∧
    ∃ b, (mine_block H s ts hx).blocks = s.blocks ++ [b] ∧
      b.transactions = s.pending_transactions ++ [reward_tx s] ∧
      b.transactions.getLast? = some (reward_tx s) ∧
      (reward_tx s).sender_address = none ∧
      (reward_tx s).value = REWARD_AMOUNT ∧
      b.num = (match s.blocks.getLast? with
        | none => 0 | some pb => pb.num + 1) ∧
      b.prev_block_hash = (match s.blocks.getLast? with
        | none => "-" | some pb => pb.block_hash) := by
  refine ⟨rfl, execute_pow H (next_block s ts) hx, rfl, ?_, ?_, rfl, rfl, ?_, ?_⟩
  · rw [execute_pow_transactions, next_block_transactions]
  · rw [execute_pow_transactions, next_block_transactions, List.getLast?_concat]
  · rw [show (execute_pow H (next_block s ts) hx).num = (next_block s ts).num
      from rfl, next_block_num]
  · rw [execute_pow_prev, next_block_prevMatch]

/-- Witness for C3 at a concrete state: mining on `s0c` empties the
queue. -/
theorem C3_mine_block_witness :
    (mine_block H0 s0c 1 hxC3).pending_transactions = [] :=
  (C3_mine_block H0 s0c 1 hxC3).1

/-- C4: submitTransaction fails with the signature error when the
signature does not verify; fails with the insufficient-funds error
(reporting required and available amounts) when the sender's full-chain
balance is strictly below the value; and otherwise returns the state with
the transaction appended to the pending queue and the chain unchanged.
Failures are raised before any state is touched. -/
theorem C4_submit_transaction (verify : String → String → String → Bool)
    (s : BlockchainNode) (tx : Transaction) :
    (tx.validateOk verify = false →
      submit_transaction verify s tx = Except.error SubmitError.signatureInvalid) ∧
    (tx.validateOk verify = true →
      get_balance s tx.sender_address < tx.value →
      submit_transaction verify s tx =
        Except.error (SubmitError.insufficientFunds tx.value
          (get_balance s tx.sender_address))) ∧
    (tx.validateOk verify = true →
      ¬ get_balance s tx.sender_address < tx.value →
      submit_transaction verify s tx =
        Except.ok { s with
          pending_transactions := s.pending_transactions ++ [tx] }) := by
  refine ⟨?_, ?_, ?_⟩
  · intro h; simp [submit_transaction, h]
  · intro h1 h2; simp [submit_transaction, h1, h2]
  · intro h1 h2; exact submit_ok_iff.2 ⟨h1, h2, rfl⟩

/-- Witness for C4: all three branches at concrete inputs: a rejected
signature, an overdraft of 5 against balance 0, and an accepted
zero-value transaction. -/
theorem C4_submit_transaction_witness :
    submit_transaction verifyF nodeM txBad
      = Except.error SubmitError.signatureInvalid ∧
    submit_transaction verifyT nodeM txBad
      = Except.error (SubmitError.insufficientFunds 5 0) ∧
    submit_transaction verifyT nodeM txZero
      = Except.ok { nodeM with pending_transactions := [txZero] } :=
  ⟨(C4_submit_transaction verifyF nodeM txBad).1 (by decide),
   (C4_submit_transaction verifyT nodeM txBad).2.1 (by decide) (by decide),
   (C4_submit_transaction verifyT nodeM txZero).2.2 (by decide) (by decide)⟩

/-- C5 counterexample: on the single-block state `sBad`, whose cached
hash is stale, the `validate_chain` call under `Hbad` fails with the
bad-block error AND returns a state whose block has its cached
`block_hash` overwritten by the recomputed hash: a failing validation
does mutate the ledger state (`Block.hash` stores what it recomputes). -/
theorem C5_validate_mutates_counterexample :
    (validate_chain Hbad sBad).2 = some (ChainError.badBlockHash 0) ∧
    (validate_chain Hbad sBad).1 ≠ sBad :=
  ⟨by decide, by decide⟩

/-- C5 amended: any `validate_chain` call, failing or not, leaves the
miner address, the pending queue, and every block field other than the
cached `block_hash` unchanged (in particular the number of blocks); the
cached `block_hash` of the blocks visited before the failure (and of the
offending block itself when the proof-of-work check fails) may be
overwritten with the recomputed hash. -/
theorem C5_validate_chain_amended (H : String → String) (s : BlockchainNode) :
    ((validate_chain H s).1).miner_address = s.miner_address ∧
    ((validate_chain H s).1).pending_transactions = s.pending_transactions ∧
    (((validate_chain H s).1).blocks).map stripHash = s.blocks.map stripHash :=
  validate_chain_strip H s

/-- C6 counterexample: `sH1` is a freshly mined (reachable) one-block
chain under `H1`; tampering its genesis block's reward transaction value
from 2 to 3 without re-mining changes the recomputed header hash, yet
`validate_chain` succeeds: the tampered block is the last block, its new
hash still satisfies the proof-of-work predicate, and no stored hash is
ever compared with the recomputed one. -/
theorem C6_tamper_counterexample :
    Reachable H1 verifyT sH1 ∧
    sH1.blocks = [bH1] ∧
    bH1tam.num = bH1.num ∧
    bH1tam.timestamp = bH1.timestamp ∧
    bH1tam.prev_block_hash = bH1.prev_block_hash ∧
    bH1tam.nonce = bH1.nonce ∧
    bH1tam.transactions ≠ bH1.transactions ∧
    H1 bH1tam.get_header ≠ H1 bH1.get_header ∧
    (validate_chain H1 sH1tam).2 = none := by
  have hf : Nat.find hxH1 = 0 := (Nat.find_eq_zero hxH1).mpr (by decide)
  refine ⟨Reachable.init "m" 0 hxH1, rfl, rfl, rfl, rfl, rfl, by decide, ?_, ?_⟩
  · simp only [bH1tam, bH1, execute_pow, hf]
    decide
  · simp only [sH1tam, sH1, bH1tam, bH1, initNode, mine_block, execute_pow, hf]
    decide

/-- C6 amended: in any chain satisfying the mined-chain integrity
invariant `goodFrom` (which every chain produced by mineBlock calls
satisfies, by `C1`), replacing one stored block by a tampered block with
the same number, nonce and previous hash but a different recomputed
header hash makes `validate_chain` fail — provided the tampered block has
a successor, or its new hash fails the proof-of-work predicate.  (The
counterexample shows the remaining case — last block, new hash still
satisfying the predicate — validates successfully.) -/
theorem C6_tamper_amended (H : String → String) (mi : String)
    (pend : List Transaction) (l₁ : List Block) (b : Block) (l₂ : List Block)
    (b' : Block)
    (hgood : goodFrom H "-" (l₁ ++ b :: l₂) = true)
    (_hnum : b'.num = b.num)
    (_hnonce : b'.nonce = b.nonce)
    (hprev : b'.prev_block_hash = b.prev_block_hash)
    (hhash : H b'.get_header ≠ H b.get_header)
    (hfail : l₂ ≠ [] ∨ proof_of_work_func (H b'.get_header) = false) :
    (validate_chain H ⟨mi, l₁ ++ b' :: l₂, pend⟩).2 ≠ none :=
  tamper_fails H mi pend l₁ b l₂ b' hgood hprev hhash hfail

/-- Witness for C6 (amended): tampering the timestamp of the single block
of a valid chain under `HW` (whose recomputed tampered hash fails the
predicate) makes validation fail. -/
theorem C6_tamper_amended_witness :
    (validate_chain HW ⟨"m", [bWtam], []⟩).2 ≠ none :=
  C6_tamper_amended HW "m" [] [] bW [] bWtam (by decide) (by decide)
    (by decide) (by decide) (by decide) (by decide)

/-- C7 counterexample: the reachable chain `s2self` (2 mined blocks)
contains a self-transfer of value 1, and the sum of balances over all
addresses occurring in the chain is 3, not `2 * REWARD_AMOUNT = 4`: the
`elif` in `get_balance` makes a self-transfer net its sender −1 instead
of 0. -/
theorem C7_conservation_counterexample :
    Reachable H0 verifyT s2self ∧
    s2self.blocks.length = 2 ∧
    (∑ a ∈ chainAddresses s2self, get_balance s2self (some a)) = 3 ∧
    REWARD_AMOUNT * (s2self.blocks.length : Int) = 4 :=
  ⟨Reachable.mine 1 hxSelf
    (Reachable.submit txSelf (Reachable.init "m" 0 hx0) rfl),
   by decide, by decide, by decide⟩

/-- C7 amended: for every reachable chain in which every stored
transaction with a (non-null) sender has a non-null recipient distinct
from its sender, the sum of `get_balance` over all addresses occurring in
the chain equals the number of mined blocks times `REWARD_AMOUNT`: each
reward is the only net issuance and every other transfer nets to zero. -/
theorem C7_conservation_amended {H : String → String}
    {verify : String → String → String → Bool} {s : BlockchainNode}
    (h : Reachable H verify s)
    (hdistinct : ∀ t ∈ chainTxs s, t.sender_address ≠ none →
      t.recipient_address ≠ none ∧ t.recipient_address ≠ t.sender_address) :
    ∑ a ∈ chainAddresses s, get_balance s (some a)
      = REWARD_AMOUNT * s.blocks.length := by
  obtain ⟨-, hrec, hsum⟩ := reachable_inv h
  rw [sum_balances s (fun t ht => ⟨hrec t ht, hdistinct t ht⟩), hsum]

/-- Witness for C7 (amended): balance conservation on the concrete
freshly-constructed node `s0c`. -/
theorem C7_conservation_amended_witness :
    ∑ a ∈ chainAddresses s0c, get_balance s0c (some a)
      = REWARD_AMOUNT * s0c.blocks.length :=
  @C7_conservation_amended H0 verifyT s0c (Reachable.init "m" 0 hx0)
    (by decide)

/-- C8: under the hypothesis that some nonce makes the block's header
hash satisfy the proof-of-work predicate, the mining search terminates
(the function is total) and returns the block with the least satisfying
nonce, with its stored hash equal to the hash of the header at that
nonce, all other fields unchanged. -/
theorem C8_execute_pow (H : String → String) (b : Block)
    (hx : ∃ n, powAt H b n = true) :
    powAt H b ((execute_pow H b hx).nonce) = true ∧
    (∀ m < (execute_pow H b hx).nonce, powAt H b m = false) ∧
    (execute_pow H b hx).block_hash =
      H (Block.get_header { b with nonce := (execute_pow H b hx).nonce }) ∧
    (execute_pow H b hx).num = b.num ∧
    (execute_pow H b hx).timestamp = b.timestamp ∧
    (execute_pow H b hx).prev_block_hash = b.prev_block_hash ∧
    (execute_pow H b hx).transactions = b.transactions := by
  refine ⟨Nat.find_spec hx, ?_, rfl, rfl, rfl, rfl, rfl⟩
  intro m hm
  have hmin := Nat.find_min hx (show m < Nat.find hx from hm)
  cases hb : powAt H b m with
  | false => rfl
  | true => exact absurd hb hmin

/-- Witness for C8: the search on the concrete block `bC8` under `H0`
stores the hash of the header at the found nonce. -/
theorem C8_execute_pow_witness :
    (execute_pow H0 bC8 hxC8).block_hash =
      H0 (Block.get_header { bC8 with nonce := (execute_pow H0 bC8 hxC8).nonce }) :=
  (C8_execute_pow H0 bC8 hxC8).2.2.1

/-- C9 counterexample: the miner itself has full-chain balance 2 > 0
after construction; submitting the validly-signed transfer `txDrain` of
value 2 twice in a row succeeds both times before any mining (the funds
check never reads the pending queue), but after the next mineBlock the
miner's balance is 0 — not negative — because the mined block also
credits the miner's reward. -/
theorem C9_pending_counterexample :
    get_balance s0c (some "m") = 2 ∧
    (0 : Int) < 2 ∧
    submitAll verifyT s0c [txDrain, txDrain] = Except.ok s1drain ∧
    ¬ get_balance s2drain (some "m") < 0 ∧
    get_balance s2drain (some "m") = 0 :=
  ⟨by decide, by decide, rfl, by decide, by decide⟩

/-- C9 amended: the funds check reads only mined blocks, never the
pending queue: starting from a state with an empty queue in which sender
`a`'s full-chain balance is `B > 0`, submitting any number of
validly-signed transactions of value `B` from `a` succeeds for all of
them; and when `a` is not the miner, after the next mineBlock `a`'s
balance is `B - k·B`, which is negative whenever `k ≥ 2` transactions
were submitted. -/
theorem C9_pending_not_checked (H : String → String)
    (verify : String → String → String → Bool) (s : BlockchainNode)
    (a : String) (B : Int) (txs : List Transaction) (ts : Nat)
    (hpend : s.pending_transactions = [])
    (htxs : ∀ tx ∈ txs,
      tx.validateOk verify = true ∧ tx.sender_address = some a ∧ tx.value = B)
    (hbal : get_balance s (some a) = B)
    (hB : 0 < B)
    (hmi : a ≠ s.miner_address)
    (hx : ∃ n, powAt H (next_block { s with pending_transactions := txs } ts) n = true) :
    submitAll verify s txs = Except.ok { s with pending_transactions := txs } ∧
    get_balance (mine_block H { s with pending_transactions := txs } ts hx) (some a)
      = B - txs.length * B ∧
    (2 ≤ txs.length →
      get_balance (mine_block H { s with pending_transactions := txs } ts hx)
        (some a) < 0) := by
  have hsub := submitAll_ok a B txs s htxs hbal
  rw [hpend] at hsub
  simp only [List.nil_append] at hsub
  have hbm : get_balance (mine_block H { s with pending_transactions := txs } ts hx)
      (some a) = B - txs.length * B := by
    rw [balance_after_mine]
    have hb2 : get_balance { s with pending_transactions := txs } (some a) = B := hbal
    have h1 : ((txs.map (txContrib (some a))).sum = txs.length * (-B)) :=
      sum_map_const (-B) txs _ (fun t ht => by
        obtain ⟨-, hsm, hvm⟩ := htxs t ht
        simp [txContrib, hsm, hvm])
    have h2 : txContrib (some a)
        (reward_tx { s with pending_transactions := txs }) = 0 := by
      simp [txContrib, reward_tx, Ne.symm hmi]
    simp only [List.map_append, List.sum_append, List.map_cons, List.map_nil,
      List.sum_cons, List.sum_nil, h1, h2, hb2]
    ring
  refine ⟨hsub, hbm, fun hk => ?_⟩
  rw [hbm]
  have hk2 : (2 : Int) ≤ (txs.length : Int) := by exact_mod_cast hk
  have hmul : (2 : Int) * B ≤ (txs.length : Int) * B :=
    mul_le_mul_of_nonneg_right hk2 (le_of_lt hB)
  linarith

/-- Witness for C9 (amended): address `"a"` holds 2 on the chain `sFund`;
two submissions of the whole balance both succeed and after mining its
balance is negative. -/
theorem C9_pending_not_checked_witness :
    submitAll verifyT sFund [txSpend, txSpend] =
      Except.ok { sFund with pending_transactions := [txSpend, txSpend] } ∧
    get_balance (mine_block H0
      { sFund with pending_transactions := [txSpend, txSpend] } 2 hxSpend)
      (some "a") < 0 := by
  have h := C9_pending_not_checked H0 verifyT sFund "a" 2 [txSpend, txSpend] 2
    rfl (by decide) (by decide) (by decide) (by decide) hxSpend
  exact ⟨h.1, h.2.2 (by decide)⟩

/-- C10 counterexample: the negative-value transaction `txNeg` (value −1,
recipient the miner `"m"`) is accepted from the zero-balance sender `"a"`
— but once mined it does not decrease the recipient's balance by the
absolute value: the miner's balance goes from 2 to 3 (the −1 credit plus
the +2 reward of the same block), not from 2 to 1. -/
theorem C10_negative_value_counterexample :
    txNeg.value < 0 ∧
    get_balance s0c txNeg.sender_address = 0 ∧
    submit_transaction verifyT s0c txNeg = Except.ok s1neg ∧
    get_balance s0c (some "m") = 2 ∧
    get_balance s2neg (some "m") = 3 :=
  ⟨by decide, by decide, rfl, by decide, by decide⟩

/-- C10 amended: submitTransaction performs no non-negativity check:
starting from an empty queue, any validly-signed transaction of negative
value whose sender's balance is at least that value — in particular a
zero-balance sender — is accepted; and when sender, recipient and miner
are pairwise distinct, mining it increases the sender's balance and
decreases the recipient's balance by the absolute value. -/
theorem C10_negative_value_amended (H : String → String)
    (verify : String → String → String → Bool) (s : BlockchainNode)
    (tx : Transaction) (a r : String) (ts : Nat)
    (hpend : s.pending_transactions = [])
    (hv : tx.validateOk verify = true)
    (hneg : tx.value < 0)
    (hs : tx.sender_address = some a)
    (hr : tx.recipient_address = some r)
    (har : a ≠ r)
    (ham : a ≠ s.miner_address)
    (hrm : r ≠ s.miner_address)
    (hbal : tx.value ≤ get_balance s (some a))
    (hx : ∃ n, powAt H (next_block { s with pending_transactions := [tx] } ts) n = true) :
    submit_transaction verify s tx =
      Except.ok { s with pending_transactions := [tx] } ∧
    get_balance (mine_block H { s with pending_transactions := [tx] } ts hx)
      (some a) = get_balance s (some a) - tx.value ∧
    get_balance s (some a)
      < get_balance (mine_block H { s with pending_transactions := [tx] } ts hx)
          (some a) ∧
    get_balance (mine_block H { s with pending_transactions := [tx] } ts hx)
      (some r) = get_balance s (some r) + tx.value ∧
    get_balance (mine_block H { s with pending_transactions := [tx] } ts hx)
      (some r) < get_balance s (some r) := by
  have hsub : submit_transaction verify s tx =
      Except.ok { s with pending_transactions := [tx] } := by
    have h0 := submit_ok_iff.2
      ⟨hv, by rw [hs]; exact not_lt.2 hbal, rfl⟩
    rw [hpend] at h0
    simpa using h0
  have hta : txContrib (some a) tx = -tx.value := by simp [txContrib, hs]
  have htr : txContrib (some r) tx = tx.value := by
    simp [txContrib, hs, hr, har]
  have hwa : txContrib (some a)
      (reward_tx { s with pending_transactions := [tx] }) = 0 := by
    simp [txContrib, reward_tx, Ne.symm ham]
  have hwr : txContrib (some r)
      (reward_tx { s with pending_transactions := [tx] }) = 0 := by
    simp [txContrib, reward_tx, Ne.symm hrm]
  have hba : get_balance (mine_block H { s with pending_transactions := [tx] } ts hx)
      (some a) = get_balance s (some a) - tx.value := by
    rw [balance_after_mine]
    have hb2 : get_balance { s with pending_transactions := [tx] } (some a)
        = get_balance s (some a) := rfl
    simp only [List.map_append, List.sum_append, List.map_cons, List.map_nil,
      List.sum_cons, List.sum_nil, hta, hwa, hb2]
    ring
  have hbr : get_balance (mine_block H { s with pending_transactions := [tx] } ts hx)
      (some r) = get_balance s (some r) + tx.value := by
    rw [balance_after_mine]
    have hb2 : get_balance { s with pending_transactions := [tx] } (some r)
        = get_balance s (some r) := rfl
    simp only [List.map_append, List.sum_append, List.map_cons, List.map_nil,
      List.sum_cons, List.sum_nil, htr, hwr, hb2]
    ring
  refine ⟨hsub, hba, ?_, hbr, ?_⟩
  · rw [hba]; linarith
  · rw [hbr]; linarith

/-- Witness for C10 (amended): the negative transfer `txNeg2` from the
zero-balance sender `"a"` to `"r"` is accepted on `s0c` and, once mined,
raises the sender's balance by 1. -/
theorem C10_negative_value_amended_witness :
    submit_transaction verifyT s0c txNeg2 =
      Except.ok { s0c with pending_transactions := [txNeg2] } ∧
    get_balance (mine_block H0 { s0c with pending_transactions := [txNeg2] } 1 hxNeg2)
      (some "a") = get_balance s0c (some "a") - txNeg2.value := by
  have h := C10_negative_value_amended H0 verifyT s0c txNeg2 "a" "r" 1
    rfl (by decide) (by decide) rfl rfl (by decide) (by decide) (by decide)
    (by decide) hxNeg2
  exact ⟨h.1, h.2.1⟩
